import Mathlib

/-!
Verification of the resume extraction pipeline
(`src/extract_data.py`, `app.py`) against its specification.

The Python code is shallowly embedded: strings are Lean `String`s
(structures over `List Char`), Python string methods are re-implemented
over `List Char` in their ASCII fragment, the external NLP collaborators
(tokenizer, sentence splitter, named-entity recognizer) are modelled as
inputs: a document is a list of tokens, a section is a list of sentences
each carrying its recognized entities, exactly the data the spaCy
collaborator hands to the code under verification.
-/

namespace ResumeQA

/-! ## Character primitives (ASCII fragment of Python's `str` methods) -/

/-- Python's whitespace class `\s` restricted to ASCII:
space, tab, newline, carriage return, vertical tab, form feed. -/
def isPyWs (c : Char) : Bool :=
  c = ' ' || c = '\t' || c = '\n' || c = '\r' || c = '\x0b' || c = '\x0c'

/-- `Nat.isValidChar` holds below the surrogate range. -/
theorem isValidChar_of_lt (n : Nat) (h : n < 0xd800) : n.isValidChar :=
  Or.inl h

theorem toNat_ofNat_valid (n : Nat) (h : n.isValidChar) :
    (Char.ofNat n).toNat = n := by
  have hlt : n < UInt32.size := by
    show n < 4294967296
    rcases h with h | ⟨_, h⟩ <;> omega
  simp only [Char.ofNat, h, dite_true, Char.ofNatAux, Char.toNat, UInt32.toNat]
  simp [BitVec.toNat_ofNatLt]

theorem char_eq_of_toNat_eq {a b : Char} (h : a.toNat = b.toNat) : a = b := by
  apply Char.ext
  apply UInt32.eq_of_toBitVec_eq
  exact BitVec.eq_of_toNat_eq h

/-- Core's `Char.toLower` (the model of Python `str.lower` on ASCII)
with its `let` unfolded. -/
theorem toLower_eq (c : Char) :
    Char.toLower c =
      if 65 ≤ c.toNat ∧ c.toNat ≤ 90 then Char.ofNat (c.toNat + 32) else c := by
  simp only [Char.toLower, ge_iff_le]

/-- Codepoint view of `Char.toLower`: uppercase ASCII letters shift down
by 32, all else unchanged. -/
theorem toLower_toNat (c : Char) :
    (Char.toLower c).toNat =
      if 65 ≤ c.toNat ∧ c.toNat ≤ 90 then c.toNat + 32 else c.toNat := by
  rw [toLower_eq]
  split
  · next h => exact toNat_ofNat_valid _ (isValidChar_of_lt _ (by omega))
  · next h => rfl

theorem toLower_of_not_upper_range (c : Char)
    (h : ¬(65 ≤ c.toNat ∧ c.toNat ≤ 90)) : Char.toLower c = c := by
  rw [toLower_eq, if_neg h]

theorem toLower_not_upper_range (c : Char) :
    ¬(65 ≤ (Char.toLower c).toNat ∧ (Char.toLower c).toNat ≤ 90) := by
  rw [toLower_toNat]
  split <;> omega

theorem toLower_toLower (c : Char) :
    Char.toLower (Char.toLower c) = Char.toLower c :=
  toLower_of_not_upper_range _ (toLower_not_upper_range c)

theorem isUpper_iff_toNat (c : Char) :
    c.isUpper = true ↔ 65 ≤ c.toNat ∧ c.toNat ≤ 90 := by
  simp only [Char.isUpper, Bool.and_eq_true, decide_eq_true_eq, ge_iff_le]
  exact Iff.rfl

theorem not_isUpper_toLower (c : Char) : (Char.toLower c).isUpper = false := by
  rw [Bool.eq_false_iff]
  intro hu
  have h := (isUpper_iff_toNat _).mp hu
  rw [toLower_toNat] at h
  split at h <;> omega

/-! ## `preprocess_text` (src/extract_data.py lines 79-91)

Python:
```
text = text.lower()
text = re.sub(r"\s+", " ", text)
```
`pyLower` maps `str.lower` over the characters; `collapseWs` replaces every
maximal run of whitespace by a single space, exactly what the regex
substitution does. -/

def pyLower (s : String) : String := ⟨s.data.map Char.toLower⟩

def collapseWs : List Char → List Char
  | [] => []
  | [c] => [if isPyWs c then ' ' else c]
  | c1 :: c2 :: rest =>
    if isPyWs c1 && isPyWs c2 then collapseWs (c2 :: rest)
    else (if isPyWs c1 then ' ' else c1) :: collapseWs (c2 :: rest)

def preprocess_text (s : String) : String := ⟨collapseWs (pyLower s).data⟩

/-- No two consecutive whitespace characters. -/
def noDoubleWs : List Char → Bool
  | [] => true
  | [_] => true
  | c1 :: c2 :: rest => (!(isPyWs c1 && isPyWs c2)) && noDoubleWs (c2 :: rest)

theorem isPyWs_emit (c : Char) :
    isPyWs (if isPyWs c then ' ' else c) = isPyWs c := by
  cases hc : isPyWs c
  · simp [hc]
  · simp
    decide

theorem mem_collapseWs (l : List Char) (c : Char) (h : c ∈ collapseWs l) :
    c = ' ' ∨ c ∈ l := by
  induction l using collapseWs.induct with
  | case1 => simp [collapseWs] at h
  | case2 d =>
    simp only [collapseWs, List.mem_singleton] at h
    split at h
    · exact Or.inl h
    · exact Or.inr (h ▸ List.mem_singleton.mpr rfl)
  | case3 c1 c2 rest hws ih =>
    rw [collapseWs, if_pos hws] at h
    rcases ih h with h | h
    · exact Or.inl h
    · exact Or.inr (List.mem_cons_of_mem _ h)
  | case4 c1 c2 rest hws ih =>
    rw [collapseWs, if_neg hws] at h
    rcases List.mem_cons.mp h with h | h
    · split at h
      · exact Or.inl h
      · exact Or.inr (h ▸ List.mem_cons_self _ _)
    · rcases ih h with h | h
      · exact Or.inl h
      · exact Or.inr (List.mem_cons_of_mem _ h)

theorem ws_mem_collapseWs (l : List Char) (c : Char) (h : c ∈ collapseWs l)
    (hws : isPyWs c = true) : c = ' ' := by
  induction l using collapseWs.induct with
  | case1 => simp [collapseWs] at h
  | case2 d =>
    simp only [collapseWs, List.mem_singleton] at h
    subst h
    cases hd : isPyWs d
    · rw [hd] at hws
      simp at hws
      exact absurd hws (by simp [hd])
    · simp [hd]
  | case3 c1 c2 rest hws2 ih =>
    rw [collapseWs, if_pos hws2] at h
    exact ih h
  | case4 c1 c2 rest hws2 ih =>
    rw [collapseWs, if_neg hws2] at h
    rcases List.mem_cons.mp h with h | h
    · subst h
      rw [isPyWs_emit] at hws
      simp [hws]
    · exact ih h

/-- The head of a collapsed nonempty list keeps the whitespace class of the
original head. -/
theorem collapseWs_head (c : Char) (rest : List Char) :
    ∃ d t, collapseWs (c :: rest) = d :: t ∧ isPyWs d = isPyWs c := by
  induction rest generalizing c with
  | nil =>
    exact ⟨if isPyWs c then ' ' else c, [], rfl, isPyWs_emit c⟩
  | cons c2 rest ih =>
    by_cases hws : (isPyWs c && isPyWs c2) = true
    · rcases ih c2 with ⟨d, t, heq, hcls⟩
      refine ⟨d, t, ?_, ?_⟩
      · rw [collapseWs, if_pos hws]
        exact heq
      · rw [hcls]
        have h2 := (Bool.and_eq_true _ _).mp hws
        rw [h2.1, h2.2]
    · exact ⟨if isPyWs c then ' ' else c, collapseWs (c2 :: rest),
        by rw [collapseWs, if_neg hws], isPyWs_emit c⟩

theorem noDoubleWs_collapseWs (l : List Char) :
    noDoubleWs (collapseWs l) = true := by
  induction l using collapseWs.induct with
  | case1 => rfl
  | case2 c => rfl
  | case3 c1 c2 rest hws ih =>
    rw [collapseWs, if_pos hws]
    exact ih
  | case4 c1 c2 rest hws ih =>
    rw [collapseWs, if_neg hws]
    rcases collapseWs_head c2 rest with ⟨d, t, heq, hcls⟩
    rw [heq] at ih ⊢
    rw [noDoubleWs, Bool.and_eq_true]
    refine ⟨?_, ih⟩
    rw [Bool.not_eq_true', Bool.and_eq_false_iff]
    by_cases h1 : isPyWs c1 = true
    · have h2 : isPyWs c2 = false := by
        cases hc2 : isPyWs c2
        · rfl
        · exact absurd (by rw [h1, hc2]; rfl) hws
      right
      rw [hcls, h2]
    · left
      rw [isPyWs_emit]
      simpa using h1

theorem collapseWs_fixed (l : List Char) (h1 : noDoubleWs l = true)
    (h2 : ∀ c ∈ l, isPyWs c = true → c = ' ') : collapseWs l = l := by
  induction l using collapseWs.induct with
  | case1 => rfl
  | case2 c =>
    rw [collapseWs]
    split
    · next hws =>
      rw [h2 c (List.mem_singleton.mpr rfl) hws]
    · rfl
  | case3 c1 c2 rest hws ih =>
    rw [noDoubleWs, Bool.and_eq_true, Bool.not_eq_true', hws] at h1
    exact absurd h1.1 (by simp)
  | case4 c1 c2 rest hws ih =>
    rw [noDoubleWs, Bool.and_eq_true] at h1
    rw [collapseWs, if_neg hws]
    have hrest : ∀ c ∈ c2 :: rest, isPyWs c = true → c = ' ' := by
      intro c hc
      exact h2 c (List.mem_cons_of_mem _ hc)
    rw [ih h1.2 hrest]
    split
    · next h =>
      rw [h2 c1 (List.mem_cons_self _ _) h]
    · rfl

/-- C5: for every input string, the output of `preprocess_text` contains no
upper-case letters, has no two consecutive whitespace characters (every
whitespace run collapses to one space, so the only whitespace left is a
single `' '`), and the normalizer is idempotent. -/
theorem C5_preprocess_normalizer (s : String) :
    (∀ c ∈ (preprocess_text s).data, c.isUpper = false) ∧
    noDoubleWs (preprocess_text s).data = true ∧
    (∀ c ∈ (preprocess_text s).data, isPyWs c = true → c = ' ') ∧
    preprocess_text (preprocess_text s) = preprocess_text s := by
  have hdata : (preprocess_text s).data = collapseWs (s.data.map Char.toLower) := rfl
  refine ⟨?_, ?_, ?_, ?_⟩
  · intro c hc
    rw [hdata] at hc
    rcases mem_collapseWs _ _ hc with h | h
    · subst h
      decide
    · rcases List.mem_map.mp h with ⟨x, _, hx⟩
      rw [← hx]
      exact not_isUpper_toLower x
  · rw [hdata]
    exact noDoubleWs_collapseWs _
  · intro c hc
    rw [hdata] at hc
    exact ws_mem_collapseWs _ _ hc
  · show (⟨collapseWs ((preprocess_text s).data.map Char.toLower)⟩ : String) =
      preprocess_text s
    have hmap : (preprocess_text s).data.map Char.toLower = (preprocess_text s).data := by
      have h1 : (preprocess_text s).data.map Char.toLower =
          (preprocess_text s).data.map id := by
        apply List.map_congr_left
        intro c hc
        rw [hdata] at hc
        rcases mem_collapseWs _ _ hc with h | h
        · subst h
          decide
        · rcases List.mem_map.mp h with ⟨x, _, hx⟩
          rw [← hx, toLower_toLower]
          rfl
      rw [h1, List.map_id]
    rw [hmap]
    have hfix : collapseWs (preprocess_text s).data = (preprocess_text s).data := by
      apply collapseWs_fixed
      · rw [hdata]
        exact noDoubleWs_collapseWs _
      · intro c hc
        rw [hdata] at hc
        exact ws_mem_collapseWs _ _ hc
    rw [hfix]

/-- Concrete run of the normalizer claim: lower-casing and whitespace
collapsing on a sample input. -/
theorem C5_sample : preprocess_text "Ab\n\n  C" = "ab c" := by decide

/-! ## Python string helpers used by the extractors -/

/-- Python `str.split(sep)` for a one-character separator, keeping empty
pieces (`"a\n\nb".split("\n") = ["a", "", "b"]`, `"".split("\n") = [""]`). -/
def splitOnChar (sep : Char) : List Char → List (List Char)
  | [] => [[]]
  | c :: rest =>
    let r := splitOnChar sep rest
    if c = sep then [] :: r
    else
      match r with
      | [] => [[c]]
      | p :: ps => (c :: p) :: ps

def pySplit (s : String) (sep : Char) : List String :=
  (splitOnChar sep s.data).map (fun l => ⟨l⟩)

/-- Python `str.strip()` with no argument (ASCII whitespace). -/
def pyStrip (s : String) : String :=
  ⟨((s.data.dropWhile (isPyWs ·)).reverse.dropWhile (isPyWs ·)).reverse⟩

/-- Substring containment over char lists (Python's `needle in haystack`). -/
def containsSub (needle : List Char) : List Char → Bool
  | [] => needle.isPrefixOf []
  | c :: rest => needle.isPrefixOf (c :: rest) || containsSub needle rest

/-- Python `needle in hay` for strings. -/
def pyContains (hay needle : String) : Bool := containsSub needle.data hay.data

/-- Python `str.replace(pat, rep)`: every non-overlapping occurrence of
`pat` is replaced by `rep`, scanning left to right. Structural recursion on
a fuel argument that always dominates the list length, so the kernel can
evaluate it. (Python's behavior for the degenerate empty pattern —
interleaving `rep` everywhere — is not modelled; the embedded code only
reaches `replace` with nonempty patterns, and we return the string
unchanged on an empty pattern.) -/
def replaceLAux (pat rep : List Char) : Nat → List Char → List Char
  | _, [] => []
  | 0, l => l
  | fuel + 1, c :: rest =>
    if (!pat.isEmpty) && pat.isPrefixOf (c :: rest) then
      rep ++ replaceLAux pat rep fuel (rest.drop (pat.length - 1))
    else c :: replaceLAux pat rep fuel rest

def replaceL (pat rep l : List Char) : List Char := replaceLAux pat rep l.length l

def pyReplace (s pat rep : String) : String := ⟨replaceL pat.data rep.data s.data⟩

/-! ## Entities, sentences, and the record builders
(src/extract_data.py, `extract_experiences` lines 223-287 and
`extract_education` lines 289-348)

The spaCy collaborator (sentence segmentation and named-entity recognition)
is external: its output — the sentence sequence, each sentence with its raw
text and recognized entities — is the input of the embedded builders. -/

/-- A named entity recognized by the external NER collaborator. -/
structure Ent where
  label : String
  text : String
deriving DecidableEq, Repr

/-- A sentence produced by the external sentence segmenter, with its raw
text and recognized entities. -/
structure Sentence where
  text : String
  ents : List Ent
deriving DecidableEq, Repr

/-- `labels = [ent.label_ for ent in sent.ents]`. -/
def sentLabels (s : Sentence) : List String := s.ents.map (·.label)

/-- The record-start condition of both builders
(`"DATE" in labels and "ORG" in labels and "GPE" in labels`,
src/extract_data.py lines 241 and 307). -/
def startsRecord (s : Sentence) : Bool :=
  decide ("DATE" ∈ sentLabels s) && decide ("ORG" ∈ sentLabels s) &&
    decide ("GPE" ∈ sentLabels s)

/-- `[ent.text for ent in sent.ents if ent.label_ == lbl]`. -/
def entTexts (s : Sentence) (lbl : String) : List String :=
  (s.ents.filter (fun e => e.label == lbl)).map (·.text)

structure ExperienceRecord where
  date : String
  place : String
  orgName : String
  orgDescription : String
  role : String
  description : String
deriving DecidableEq, Repr

structure EducationRecord where
  date : String
  place : String
  institution : String
  formationName : String
  description : String
deriving DecidableEq, Repr

/-- The non-blank lines of a qualifying sentence that do not contain the
section label word (src/extract_data.py lines 268-269 and 329-330). -/
def sentSplitLines (text labelWord : String) : List String :=
  (pySplit text '\n').filter
    (fun s => (!(pyStrip s == "")) && (!(pyContains (pyLower s) labelWord)))

/-- New experience record from a qualifying sentence
(src/extract_data.py lines 242-279). The call sites guarantee a DATE
entity exists, so `dates` is nonempty and the `getD` defaults are inert. -/
def mkExperience (sent : Sentence) : ExperienceRecord :=
  let dates := entTexts sent "DATE"
  let orgs := (sent.ents.filter
    (fun e => e.label == "ORG" && (!(pyContains (pyLower e.text) "experience")))).map
    (·.text)
  let places := entTexts sent "GPE"
  let lines := sentSplitLines sent.text "experience"
  let roleRaw := (pySplit (lines.getD 0 "") ',').getD 3 "N/A"
  { date := dates.getD 0 "N/A"
    orgName := orgs.getD 0 "N/A"
    place := places.getD 0 "N/A"
    role := if 1 < lines.length then pyStrip (pyReplace roleRaw (dates.getD 0 "") "")
      else "N/A"
    orgDescription := if 1 < lines.length then lines.getD 1 "N/A" else "N/A"
    description := "" }

/-- New education record from a qualifying sentence
(src/extract_data.py lines 308-340). -/
def mkEducation (sent : Sentence) : EducationRecord :=
  let dates := entTexts sent "DATE"
  let insts := entTexts sent "ORG"
  let places := entTexts sent "GPE"
  let lines := sentSplitLines sent.text "education"
  { date := dates.getD 0 "N/A"
    institution := insts.getD 0 "N/A"
    place := places.getD 0 "N/A"
    formationName := if 1 < lines.length then lines.getD 1 "N/A" else "N/A"
    description := if 1 < lines.length then "Modules: " ++ lines.getD 2 "N/A" ++ " "
      else "N/A" }

/-- Text appended to the open record's description by a non-qualifying
sentence: `sent.text.replace("\n", " ") + " "` (lines 283 and 344). -/
def appendDescText (sent : Sentence) : String := pyReplace sent.text "\n" " " ++ " "

/-- One step of `extract_experiences`, accumulator reversed (head = open
record). Mirrors the loop body at src/extract_data.py lines 238-285. -/
def expStep (acc : List ExperienceRecord) (sent : Sentence) : List ExperienceRecord :=
  if startsRecord sent then mkExperience sent :: acc
  else
    match acc with
    | [] => []
    | r :: rest => { r with description := r.description ++ appendDescText sent } :: rest

def extract_experiences (sents : List Sentence) : List ExperienceRecord :=
  (sents.foldl expStep []).reverse

/-- One step of `extract_education` (loop body at lines 304-346). -/
def eduStep (acc : List EducationRecord) (sent : Sentence) : List EducationRecord :=
  if startsRecord sent then mkEducation sent :: acc
  else
    match acc with
    | [] => []
    | r :: rest => { r with description := r.description ++ appendDescText sent } :: rest

def extract_education (sents : List Sentence) : List EducationRecord :=
  (sents.foldl eduStep []).reverse

/-! ## Structural lemmas about the record-builder folds -/

/-- Apply `f` to the last element of a list (identity on `[]`). -/
def updLast {α : Type} (f : α → α) : List α → List α
  | [] => []
  | [a] => [f a]
  | a :: b :: rest => a :: updLast f (b :: rest)

theorem updLast_concat {α : Type} (f : α → α) (l : List α) (a : α) :
    updLast f (l ++ [a]) = l ++ [f a] := by
  induction l with
  | nil => rfl
  | cons b l ih =>
    cases l with
    | nil => rfl
    | cons c l2 =>
      show b :: updLast f ((c :: l2) ++ [a]) = b :: ((c :: l2) ++ [f a])
      rw [ih]

theorem expStep_starts (acc : List ExperienceRecord) (s : Sentence)
    (hs : startsRecord s = true) : expStep acc s = mkExperience s :: acc := by
  unfold expStep
  rw [hs]
  simp

theorem expStep_cont (r : ExperienceRecord) (rest : List ExperienceRecord)
    (s : Sentence) (hs : startsRecord s = false) :
    expStep (r :: rest) s =
      { r with description := r.description ++ appendDescText s } :: rest := by
  unfold expStep
  rw [hs]
  simp

theorem expStep_nil (s : Sentence) (hs : startsRecord s = false) :
    expStep [] s = [] := by
  unfold expStep
  rw [hs]
  simp

theorem eduStep_starts (acc : List EducationRecord) (s : Sentence)
    (hs : startsRecord s = true) : eduStep acc s = mkEducation s :: acc := by
  unfold eduStep
  rw [hs]
  simp

theorem eduStep_cont (r : EducationRecord) (rest : List EducationRecord)
    (s : Sentence) (hs : startsRecord s = false) :
    eduStep (r :: rest) s =
      { r with description := r.description ++ appendDescText s } :: rest := by
  unfold eduStep
  rw [hs]
  simp

theorem eduStep_nil (s : Sentence) (hs : startsRecord s = false) :
    eduStep [] s = [] := by
  unfold eduStep
  rw [hs]
  simp

theorem expStep_ne_nil (acc : List ExperienceRecord) (s : Sentence)
    (h : acc ≠ []) : expStep acc s ≠ [] := by
  unfold expStep
  split
  · simp
  · cases acc with
    | nil => exact absurd rfl h
    | cons r rest => simp

theorem eduStep_ne_nil (acc : List EducationRecord) (s : Sentence)
    (h : acc ≠ []) : eduStep acc s ≠ [] := by
  unfold eduStep
  split
  · simp
  · cases acc with
    | nil => exact absurd rfl h
    | cons r rest => simp

theorem expFold_ne_nil (sents : List Sentence) (acc : List ExperienceRecord)
    (h : acc ≠ []) : sents.foldl expStep acc ≠ [] := by
  induction sents generalizing acc with
  | nil => exact h
  | cons s rest ih => exact ih _ (expStep_ne_nil _ _ h)

theorem eduFold_ne_nil (sents : List Sentence) (acc : List EducationRecord)
    (h : acc ≠ []) : sents.foldl eduStep acc ≠ [] := by
  induction sents generalizing acc with
  | nil => exact h
  | cons s rest ih => exact ih _ (eduStep_ne_nil _ _ h)

theorem expFold_nil (sents : List Sentence)
    (h : ∀ s ∈ sents, startsRecord s = false) : sents.foldl expStep [] = [] := by
  induction sents with
  | nil => rfl
  | cons s rest ih =>
    have hstep : expStep [] s = [] := by
      unfold expStep
      rw [h s (List.mem_cons_self _ _)]
      simp
    show List.foldl expStep (expStep [] s) rest = []
    rw [hstep]
    exact ih (fun q hq => h q (List.mem_cons_of_mem _ hq))

theorem eduFold_nil (sents : List Sentence)
    (h : ∀ s ∈ sents, startsRecord s = false) : sents.foldl eduStep [] = [] := by
  induction sents with
  | nil => rfl
  | cons s rest ih =>
    have hstep : eduStep [] s = [] := by
      unfold eduStep
      rw [h s (List.mem_cons_self _ _)]
      simp
    show List.foldl eduStep (eduStep [] s) rest = []
    rw [hstep]
    exact ih (fun q hq => h q (List.mem_cons_of_mem _ hq))

theorem expFold_ne_nil_of_start (sents : List Sentence) (acc : List ExperienceRecord)
    (q : Sentence) (hq : q ∈ sents) (hstart : startsRecord q = true) :
    sents.foldl expStep acc ≠ [] := by
  induction sents generalizing acc with
  | nil => cases hq
  | cons s rest ih =>
    rcases List.mem_cons.mp hq with rfl | hmem
    · show List.foldl expStep (expStep acc q) rest ≠ []
      apply expFold_ne_nil
      rw [expStep_starts _ _ hstart]
      simp
    · exact ih _ hmem

theorem eduFold_ne_nil_of_start (sents : List Sentence) (acc : List EducationRecord)
    (q : Sentence) (hq : q ∈ sents) (hstart : startsRecord q = true) :
    sents.foldl eduStep acc ≠ [] := by
  induction sents generalizing acc with
  | nil => cases hq
  | cons s rest ih =>
    rcases List.mem_cons.mp hq with rfl | hmem
    · show List.foldl eduStep (eduStep acc q) rest ≠ []
      apply eduFold_ne_nil
      rw [eduStep_starts _ _ hstart]
      simp
    · exact ih _ hmem

/-! ## Concrete sentences for the end-to-end part of C1 -/

/-- An Education-qualifying sentence: its entity-type set contains DATE,
ORG and GPE. -/
def eduQualSent : Sentence :=
  { text := "education\nuniversity of x, 2019\nbsc maths\nalgebra, logic"
    ents := [⟨"DATE", "2019"⟩, ⟨"ORG", "university of x"⟩, ⟨"GPE", "london"⟩] }

/-- First trailing free-text sentence (no entities). -/
def trailing1 : Sentence := { text := "first extra", ents := [] }

/-- Second trailing free-text sentence (no entities). -/
def trailing2 : Sentence := { text := "second extra", ents := [] }

/-- The single education record the end-to-end document produces. -/
def eduExpected : EducationRecord :=
  { date := "2019", place := "london", institution := "university of x"
    formationName := "bsc maths"
    description := "Modules: algebra, logic first extra second extra " }

/-- C1: a sentence opens a new record iff its entity-type set contains
DATE, ORG and GPE; a non-qualifying sentence while a record is open is
appended (newlines replaced by spaces, trailing space) to the open —
i.e. last — record's description; a non-qualifying sentence before any
record is open is discarded; and the end-to-end Education example yields
exactly one record whose description contains both trailing sentences
separated by a single space. -/
theorem C1_record_builders (pre : List Sentence) (s : Sentence) :
    (startsRecord s = true →
      extract_education (pre ++ [s]) = extract_education pre ++ [mkEducation s] ∧
      extract_experiences (pre ++ [s]) = extract_experiences pre ++ [mkExperience s]) ∧
    (startsRecord s = false → (∃ q ∈ pre, startsRecord q = true) →
      extract_education (pre ++ [s]) =
        updLast (fun r => { r with description := r.description ++ appendDescText s })
          (extract_education pre) ∧
      extract_experiences (pre ++ [s]) =
        updLast (fun r => { r with description := r.description ++ appendDescText s })
          (extract_experiences pre)) ∧
    (startsRecord s = false → (∀ q ∈ pre, startsRecord q = false) →
      extract_education (pre ++ [s]) = [] ∧ extract_experiences (pre ++ [s]) = []) ∧
    extract_education [eduQualSent, trailing1, trailing2] = [eduExpected] ∧
    (∃ a b, eduExpected.description =
      a ++ (trailing1.text ++ " " ++ trailing2.text) ++ b) := by
  refine ⟨?_, ?_, ?_, ?_, ?_⟩
  · intro hs
    constructor
    · show (List.foldl eduStep [] (pre ++ [s])).reverse = _
      rw [List.foldl_append]
      show (eduStep (List.foldl eduStep [] pre) s).reverse = _
      rw [eduStep_starts _ _ hs, List.reverse_cons]
      rfl
    · show (List.foldl expStep [] (pre ++ [s])).reverse = _
      rw [List.foldl_append]
      show (expStep (List.foldl expStep [] pre) s).reverse = _
      rw [expStep_starts _ _ hs, List.reverse_cons]
      rfl
  · rintro hs ⟨q, hq, hstart⟩
    constructor
    · have hne := eduFold_ne_nil_of_start pre [] q hq hstart
      obtain ⟨r, rest, hA⟩ : ∃ r rest, List.foldl eduStep [] pre = r :: rest := by
        cases hcase : List.foldl eduStep [] pre with
        | nil => exact absurd hcase hne
        | cons r rest => exact ⟨r, rest, rfl⟩
      have hpre : extract_education pre = (r :: rest).reverse := by
        rw [extract_education, hA]
      show (List.foldl eduStep [] (pre ++ [s])).reverse = _
      rw [List.foldl_append]
      show (eduStep (List.foldl eduStep [] pre) s).reverse = _
      rw [hA, eduStep_cont _ _ _ hs, List.reverse_cons, hpre, List.reverse_cons,
        updLast_concat]
    · have hne := expFold_ne_nil_of_start pre [] q hq hstart
      obtain ⟨r, rest, hA⟩ : ∃ r rest, List.foldl expStep [] pre = r :: rest := by
        cases hcase : List.foldl expStep [] pre with
        | nil => exact absurd hcase hne
        | cons r rest => exact ⟨r, rest, rfl⟩
      have hpre : extract_experiences pre = (r :: rest).reverse := by
        rw [extract_experiences, hA]
      show (List.foldl expStep [] (pre ++ [s])).reverse = _
      rw [List.foldl_append]
      show (expStep (List.foldl expStep [] pre) s).reverse = _
      rw [hA, expStep_cont _ _ _ hs, List.reverse_cons, hpre, List.reverse_cons,
        updLast_concat]
  · intro hs hnone
    constructor
    · show (List.foldl eduStep [] (pre ++ [s])).reverse = _
      rw [List.foldl_append, eduFold_nil pre hnone]
      show (eduStep [] s).reverse = []
      rw [eduStep_nil _ hs]
      rfl
    · show (List.foldl expStep [] (pre ++ [s])).reverse = _
      rw [List.foldl_append, expFold_nil pre hnone]
      show (expStep [] s).reverse = []
      rw [expStep_nil _ hs]
      rfl
  · decide
  · exact ⟨"Modules: algebra, logic ", " ", by decide⟩

/-- Concrete instantiation of C1: the non-qualifying sentence after an
opened record is appended to that record's description. -/
theorem C1_record_builders_witness :
    extract_education ([eduQualSent] ++ [trailing1]) =
      updLast
        (fun r => { r with description := r.description ++ appendDescText trailing1 })
        (extract_education [eduQualSent]) ∧
    extract_experiences ([eduQualSent] ++ [trailing1]) =
      updLast
        (fun r => { r with description := r.description ++ appendDescText trailing1 })
        (extract_experiences [eduQualSent]) :=
  (C1_record_builders [eduQualSent] trailing1).2.1 (by decide)
    ⟨eduQualSent, List.mem_singleton.mpr rfl, by decide⟩

/-! ## C4: the "N/A"-sentinel invariant on record fields -/

/-- The first element of a list of entity texts, defaulting to "N/A"
(`xs[0] if xs else "N/A"`), is never empty when entity texts are
nonempty. -/
theorem filtered_texts_getD_ne (ents : List Ent) (p : Ent → Bool)
    (h : ∀ e ∈ ents, e.text ≠ "") :
    ((ents.filter p).map (fun e => e.text)).getD 0 "N/A" ≠ "" := by
  cases hE : (ents.filter p).map (fun e => e.text) with
  | nil => decide
  | cons t ts =>
    have ht : t ∈ (ents.filter p).map (fun e => e.text) := by
      rw [hE]
      exact List.mem_cons_self _ _
    rcases List.mem_map.mp ht with ⟨e, he, rfl⟩
    have := h e (List.mem_filter.mp he).1
    simpa using this

theorem mkEducation_fields (s : Sentence) (h : ∀ e ∈ s.ents, e.text ≠ "") :
    (mkEducation s).date ≠ "" ∧ (mkEducation s).place ≠ "" ∧
      (mkEducation s).institution ≠ "" :=
  ⟨filtered_texts_getD_ne _ _ h, filtered_texts_getD_ne _ _ h,
    filtered_texts_getD_ne _ _ h⟩

theorem mkExperience_fields (s : Sentence) (h : ∀ e ∈ s.ents, e.text ≠ "") :
    (mkExperience s).date ≠ "" ∧ (mkExperience s).place ≠ "" ∧
      (mkExperience s).orgName ≠ "" :=
  ⟨filtered_texts_getD_ne _ _ h, filtered_texts_getD_ne _ _ h,
    filtered_texts_getD_ne _ _ h⟩

theorem eduFold_inv (sents : List Sentence) (acc : List EducationRecord)
    (h : ∀ s ∈ sents, ∀ e ∈ s.ents, e.text ≠ "")
    (hacc : ∀ r ∈ acc, r.date ≠ "" ∧ r.place ≠ "" ∧ r.institution ≠ "") :
    ∀ r ∈ sents.foldl eduStep acc, r.date ≠ "" ∧ r.place ≠ "" ∧ r.institution ≠ "" := by
  induction sents generalizing acc with
  | nil => exact hacc
  | cons s rest ih =>
    show ∀ r ∈ List.foldl eduStep (eduStep acc s) rest, _
    apply ih _ (fun q hq => h q (List.mem_cons_of_mem _ hq))
    intro r hr
    unfold eduStep at hr
    split at hr
    · rcases List.mem_cons.mp hr with rfl | hr
      · exact mkEducation_fields s (h s (List.mem_cons_self _ _))
      · exact hacc r hr
    · cases acc with
      | nil => cases hr
      | cons r0 rest0 =>
        rcases List.mem_cons.mp hr with rfl | hr
        · exact hacc r0 (List.mem_cons_self _ _)
        · exact hacc r (List.mem_cons_of_mem _ hr)

theorem expFold_inv (sents : List Sentence) (acc : List ExperienceRecord)
    (h : ∀ s ∈ sents, ∀ e ∈ s.ents, e.text ≠ "")
    (hacc : ∀ r ∈ acc, r.date ≠ "" ∧ r.place ≠ "" ∧ r.orgName ≠ "") :
    ∀ r ∈ sents.foldl expStep acc, r.date ≠ "" ∧ r.place ≠ "" ∧ r.orgName ≠ "" := by
  induction sents generalizing acc with
  | nil => exact hacc
  | cons s rest ih =>
    show ∀ r ∈ List.foldl expStep (expStep acc s) rest, _
    apply ih _ (fun q hq => h q (List.mem_cons_of_mem _ hq))
    intro r hr
    unfold expStep at hr
    split at hr
    · rcases List.mem_cons.mp hr with rfl | hr
      · exact mkExperience_fields s (h s (List.mem_cons_self _ _))
      · exact hacc r hr
    · cases acc with
      | nil => cases hr
      | cons r0 rest0 =>
        rcases List.mem_cons.mp hr with rfl | hr
        · exact hacc r0 (List.mem_cons_self _ _)
        · exact hacc r (List.mem_cons_of_mem _ hr)

/-- C4: every element of the record lists returned by `extract_education`
and `extract_experiences` has non-empty date, place and
organization/institution fields; the fields are plain `String`s (never an
optional/None value, which is structural in the embedding), and a missing
entity leaves the sentinel "N/A". The hypothesis says the external NER
collaborator never produces an empty entity span. -/
theorem C4_record_fields_sentinel (sents : List Sentence)
    (h : ∀ s ∈ sents, ∀ e ∈ s.ents, e.text ≠ "") :
    (∀ r ∈ extract_education sents,
      r.date ≠ "" ∧ r.place ≠ "" ∧ r.institution ≠ "") ∧
    (∀ r ∈ extract_experiences sents,
      r.date ≠ "" ∧ r.place ≠ "" ∧ r.orgName ≠ "") := by
  constructor
  · intro r hr
    rw [extract_education, List.mem_reverse] at hr
    exact eduFold_inv sents [] h (by intro r hr; cases hr) r hr
  · intro r hr
    rw [extract_experiences, List.mem_reverse] at hr
    exact expFold_inv sents [] h (by intro r hr; cases hr) r hr

/-- Concrete instantiation of C4 on the sample education document. -/
theorem C4_record_fields_sentinel_witness :
    ((extract_education [eduQualSent]).getD 0 ⟨"", "", "", "", ""⟩).date ≠ "" ∧
    ((extract_education [eduQualSent]).getD 0 ⟨"", "", "", "", ""⟩).place ≠ "" ∧
    ((extract_education [eduQualSent]).getD 0 ⟨"", "", "", "", ""⟩).institution ≠ "" :=
  (C4_record_fields_sentinel [eduQualSent] (by decide)).1 _ (by decide)

/-! ## Regex field extractors (src/extract_data.py lines 93-158)

Python's `re.search` returns the leftmost match. Each pattern is simple
enough that its leftmost/greedy matching is implemented directly: a
`...MatchAt` function produces the match anchored at one start position,
and the extractor scans positions left to right, taking the first
success — exactly `re.search`'s strategy. -/

/-- Python's `\w` on ASCII: letters, digits, underscore. -/
def isWordChar (c : Char) : Bool := c.isAlphanum || c = '_'

/-- The class `[\w\.-]` of the email pattern. -/
def isEmailChar (c : Char) : Bool := isWordChar c || c = '.' || c = '-'

/-- Match of `[\w\.-]+@[\w\.-]+` anchored at position `i` (both `+`s
greedy; since `@` is not in the class, the backtracking of the first `+`
can only stop right before an `@`). -/
def emailMatchAt (l : List Char) (i : Nat) : Option String :=
  let t := l.drop i
  let r1 := t.takeWhile isEmailChar
  if r1.isEmpty then none
  else
    match t.drop r1.length with
    | '@' :: rest2 =>
      let r2 := rest2.takeWhile isEmailChar
      if r2.isEmpty then none else some ⟨r1 ++ '@' :: r2⟩
    | _ => none

/-- `extract_email` (lines 93-107): first match of the email pattern,
`None` when there is none. -/
def extract_email (s : String) : Option String :=
  (List.range s.data.length).findSome? (emailMatchAt s.data)

/-- The class `[0-9 .\-\(\)]` of the phone pattern. -/
def isPhoneBody (c : Char) : Bool :=
  c.isDigit || c = ' ' || c = '.' || c = '-' || c = '(' || c = ')'

/-- Greedy match of `[1-9][0-9 .\-\(\)]{8,}[0-9]` anchored at the start of
its argument: after the leading nonzero digit, the `{8,}` consumes as many
class characters as possible and backtracks to the largest `k ≥ 8` whose
following character is a digit. -/
def phoneCore (t : List Char) : Option (List Char) :=
  match t with
  | [] => none
  | c :: rest =>
    if c.isDigit && !(c = '0') then
      match ((List.range (rest.takeWhile isPhoneBody).length).filter
          (fun k => 8 ≤ k &&
            ((rest.takeWhile isPhoneBody).getD k ' ').isDigit)).getLast? with
      | some k => some (c :: rest.take (k + 1))
      | none => none
    else none

/-- Match of `[\+\(]?[1-9][0-9 .\-\(\)]{8,}[0-9]` at position `i`:
the optional prefix is tried first (greedy `?`), then without it. -/
def phoneMatchAt (l : List Char) (i : Nat) : Option String :=
  match l.drop i with
  | [] => none
  | c :: rest =>
    if c = '+' || c = '(' then
      match phoneCore rest with
      | some m => some ⟨c :: m⟩
      | none =>
        match phoneCore (c :: rest) with
        | some m => some ⟨m⟩
        | none => none
    else
      match phoneCore (c :: rest) with
      | some m => some ⟨m⟩
      | none => none

/-- `extract_phone_number` (lines 109-123). -/
def extract_phone_number (s : String) : Option String :=
  (List.range s.data.length).findSome? (phoneMatchAt s.data)

/-- One alternative of the URL pattern: literal prefix then `[^\s]+`
(greedy, at least one non-whitespace character). -/
def urlTry (pre t : List Char) : Option String :=
  if pre.isPrefixOf t then
    let r := (t.drop pre.length).takeWhile (fun c => !(isPyWs c))
    if r.isEmpty then none else some ⟨pre ++ r⟩
  else none

/-- Match of `(https?://[^\s]+)|(linkedin\.com/[^\s]+)` at position `i`;
the optional `s` and the alternation are tried in regex order. -/
def urlMatchAt (l : List Char) (i : Nat) : Option String :=
  let t := l.drop i
  match urlTry ("https://".data) t with
  | some m => some m
  | none =>
    match urlTry ("http://".data) t with
    | some m => some m
    | none => urlTry ("linkedin.com/".data) t

/-- `extract_portfolio_linkedin` (lines 144-158). -/
def extract_portfolio_linkedin (s : String) : Option String :=
  (List.range s.data.length).findSome? (urlMatchAt s.data)

/-! ## The search loop: `findSome?` over positions models `re.search` -/

theorem findSome_append {α β : Type} (f : α → Option β) (l1 l2 : List α) :
    (l1 ++ l2).findSome? f =
      match l1.findSome? f with
      | some b => some b
      | none => l2.findSome? f := by
  induction l1 with
  | nil => rfl
  | cons a l ih =>
    show List.findSome? f (a :: (l ++ l2)) = _
    rw [List.findSome?_cons, List.findSome?_cons]
    cases hfa : f a
    · simpa using ih
    · rfl

theorem findSome_singleton {α β : Type} (f : α → Option β) (a : α) :
    [a].findSome? f = f a := by
  rw [List.findSome?_cons]
  cases hfa : f a
  · rfl
  · rfl

/-- `findSome?` over `range n` finds the value at the least producing
index, and is `none` iff every index below `n` produces `none`. -/
theorem findSome_range_spec {β : Type} (f : Nat → Option β) (n : Nat) :
    ((List.range n).findSome? f = none ↔ ∀ i < n, f i = none) ∧
    (∀ b, (List.range n).findSome? f = some b →
      ∃ i < n, f i = some b ∧ ∀ j < i, f j = none) := by
  induction n with
  | zero => exact ⟨by simp, by simp⟩
  | succ n ih =>
    rw [List.range_succ]
    constructor
    · constructor
      · intro h i hi
        rw [findSome_append] at h
        cases hcase : (List.range n).findSome? f with
        | none =>
          rw [hcase] at h
          simp only [findSome_singleton] at h
          rcases Nat.lt_succ_iff_lt_or_eq.mp hi with hi2 | rfl
          · exact ih.1.mp hcase i hi2
          · exact h
        | some b =>
          rw [hcase] at h
          simp at h
      · intro h
        have hn := h n (Nat.lt_succ_self n)
        rw [findSome_append, ih.1.mpr (fun i hi => h i (Nat.lt_succ_of_lt hi))]
        simpa only [findSome_singleton] using hn
    · intro b hb
      rw [findSome_append] at hb
      cases hcase : (List.range n).findSome? f with
      | none =>
        rw [hcase] at hb
        simp only [findSome_singleton] at hb
        exact ⟨n, Nat.lt_succ_self n, hb, fun j hj => ih.1.mp hcase j hj⟩
      | some b2 =>
        rw [hcase] at hb
        simp at hb
        subst hb
        rcases ih.2 b2 hcase with ⟨i, hi, hfi, hmin⟩
        exact ⟨i, Nat.lt_succ_of_lt hi, hfi, hmin⟩

theorem emailMatchAt_oob (l : List Char) (i : Nat) (h : l.length ≤ i) :
    emailMatchAt l i = none := by
  unfold emailMatchAt
  rw [List.drop_eq_nil_of_le h]
  rfl

theorem phoneMatchAt_oob (l : List Char) (i : Nat) (h : l.length ≤ i) :
    phoneMatchAt l i = none := by
  unfold phoneMatchAt
  rw [List.drop_eq_nil_of_le h]

theorem urlMatchAt_oob (l : List Char) (i : Nat) (h : l.length ≤ i) :
    urlMatchAt l i = none := by
  unfold urlMatchAt
  rw [List.drop_eq_nil_of_le h]
  rfl

/-- C7: each of the three field extractors is total in the embedding
(returns an `Option`, no exception path exists); it returns the not-found
sentinel `none` exactly when no position of the text matches its pattern,
and otherwise the match anchored at the leftmost matching position. -/
theorem C7_extractors_total (s : String) :
    (extract_email s = none ↔ ∀ i, emailMatchAt s.data i = none) ∧
    (∀ m, extract_email s = some m →
      ∃ i, emailMatchAt s.data i = some m ∧ ∀ j < i, emailMatchAt s.data j = none) ∧
    (extract_phone_number s = none ↔ ∀ i, phoneMatchAt s.data i = none) ∧
    (∀ m, extract_phone_number s = some m →
      ∃ i, phoneMatchAt s.data i = some m ∧ ∀ j < i, phoneMatchAt s.data j = none) ∧
    (extract_portfolio_linkedin s = none ↔ ∀ i, urlMatchAt s.data i = none) ∧
    (∀ m, extract_portfolio_linkedin s = some m →
      ∃ i, urlMatchAt s.data i = some m ∧ ∀ j < i, urlMatchAt s.data j = none) := by
  have hspec1 := findSome_range_spec (emailMatchAt s.data) s.data.length
  have hspec2 := findSome_range_spec (phoneMatchAt s.data) s.data.length
  have hspec3 := findSome_range_spec (urlMatchAt s.data) s.data.length
  refine ⟨⟨?_, ?_⟩, ?_, ⟨?_, ?_⟩, ?_, ⟨?_, ?_⟩, ?_⟩
  · intro h i
    rcases Nat.lt_or_ge i s.data.length with hi | hi
    · exact hspec1.1.mp h i hi
    · exact emailMatchAt_oob _ _ hi
  · intro h
    exact hspec1.1.mpr (fun i hi => h i)
  · intro m hm
    rcases hspec1.2 m hm with ⟨i, _, hfi, hmin⟩
    exact ⟨i, hfi, hmin⟩
  · intro h i
    rcases Nat.lt_or_ge i s.data.length with hi | hi
    · exact hspec2.1.mp h i hi
    · exact phoneMatchAt_oob _ _ hi
  · intro h
    exact hspec2.1.mpr (fun i hi => h i)
  · intro m hm
    rcases hspec2.2 m hm with ⟨i, _, hfi, hmin⟩
    exact ⟨i, hfi, hmin⟩
  · intro h i
    rcases Nat.lt_or_ge i s.data.length with hi | hi
    · exact hspec3.1.mp h i hi
    · exact urlMatchAt_oob _ _ hi
  · intro h
    exact hspec3.1.mpr (fun i hi => h i)
  · intro m hm
    rcases hspec3.2 m hm with ⟨i, _, hfi, hmin⟩
    exact ⟨i, hfi, hmin⟩

/-- Concrete instantiation of C7: on `"see a.b-c@x.co here"` the email
extractor returns the leftmost match. -/
theorem C7_extractors_total_witness :
    ∃ i, emailMatchAt ("see a.b-c@x.co here" : String).data i = some "a.b-c@x.co" ∧
      ∀ j < i, emailMatchAt ("see a.b-c@x.co here" : String).data j = none :=
  (C7_extractors_total "see a.b-c@x.co here").2.1 "a.b-c@x.co" (by decide)

/-! ## C6: shape of phone-extractor matches -/

theorem mem_of_getLast? {α : Type} {l : List α} {a : α}
    (h : l.getLast? = some a) : a ∈ l := by
  rw [List.getLast?_eq_getElem?] at h
  rcases List.getElem?_eq_some.mp h with ⟨hlt, heq⟩
  exact heq ▸ List.getElem_mem hlt

/-- Every successful `phoneCore` match consists of a leading nonzero digit,
at least 8 characters of the phone body class, and a final digit. -/
theorem phoneCore_shape (t m : List Char) (h : phoneCore t = some m) :
    ∃ c body d, m = c :: (body ++ [d]) ∧ c.isDigit = true ∧ c ≠ '0' ∧
      8 ≤ body.length ∧ (∀ x ∈ body, isPhoneBody x = true) ∧
      d.isDigit = true := by
  unfold phoneCore at h
  split at h
  · exact absurd h (by simp)
  · next c rest =>
    split at h
    · next hc =>
      simp only [Bool.and_eq_true, Bool.not_eq_true', decide_eq_false_iff_not] at hc
      split at h
      · next k hk =>
        simp only [Option.some.injEq] at h
        subst h
        have hkmem := mem_of_getLast? hk
        have hkf := List.mem_filter.mp hkmem
        have hklt : k < (rest.takeWhile isPhoneBody).length :=
          List.mem_range.mp hkf.1
        have hkprop := hkf.2
        simp only [Bool.and_eq_true, decide_eq_true_eq] at hkprop
        obtain ⟨tail, htail⟩ : ∃ tail, rest = rest.takeWhile isPhoneBody ++ tail :=
          ⟨rest.dropWhile isPhoneBody, (List.takeWhile_append_dropWhile ..).symm⟩
        have hrun_le : (rest.takeWhile isPhoneBody).length ≤ rest.length :=
          (List.takeWhile_prefix isPhoneBody).length_le
        have hklt2 : k < rest.length := Nat.lt_of_lt_of_le hklt hrun_le
        have hgetD : (rest.takeWhile isPhoneBody).getD k ' ' =
            (rest.takeWhile isPhoneBody)[k] := by
          rw [List.getD_eq_getElem?_getD, List.getElem?_eq_getElem hklt]
          rfl
        have hsome : rest[k]? = some ((rest.takeWhile isPhoneBody).getD k ' ') := by
          conv =>
            lhs
            rw [htail]
          rw [List.getElem?_append, if_pos hklt, List.getElem?_eq_getElem hklt, hgetD]
        refine ⟨c, rest.take k, (rest.takeWhile isPhoneBody).getD k ' ',
          ?_, hc.1, hc.2, ?_, ?_, hkprop.2⟩
        · have hsucc : rest.take (k + 1) = rest.take k ++
              [(rest.takeWhile isPhoneBody).getD k ' '] := by
            rw [List.take_succ, hsome]
            rfl
          rw [hsucc]
        · rw [List.length_take]
          omega
        · intro x hx
          have htake : rest.take k = (rest.takeWhile isPhoneBody).take k := by
            conv =>
              lhs
              rw [htail]
            exact List.take_append_of_le_length (Nat.le_of_lt hklt)
          have hx2 : x ∈ (rest.takeWhile isPhoneBody).take k := htake ▸ hx
          exact List.mem_takeWhile_imp (List.take_subset _ _ hx2)
      · exact absurd h (by simp)
    · exact absurd h (by simp)

/-- Every successful `phoneMatchAt` result is an optional `+`/`(` prefix
followed by a `phoneCore` match. -/
theorem phoneMatchAt_shape (l : List Char) (i : Nat) (m : String)
    (h : phoneMatchAt l i = some m) :
    ∃ p mm, m.data = p ++ mm ∧ (p = [] ∨ p = ['+'] ∨ p = ['(']) ∧
      (∃ t, phoneCore t = some mm) := by
  unfold phoneMatchAt at h
  split at h
  · exact absurd h (by simp)
  · next c rest heq =>
    split at h
    · next hc =>
      simp only [Bool.or_eq_true, decide_eq_true_eq] at hc
      split at h
      · next mm hmm1 =>
        simp only [Option.some.injEq] at h
        refine ⟨[c], mm, by rw [← h]; rfl, ?_, ⟨rest, hmm1⟩⟩
        rcases hc with rfl | rfl
        · exact Or.inr (Or.inl rfl)
        · exact Or.inr (Or.inr rfl)
      · next hmm1 =>
        split at h
        · next mm hmm2 =>
          simp only [Option.some.injEq] at h
          exact ⟨[], mm, by rw [← h]; rfl, Or.inl rfl, ⟨c :: rest, hmm2⟩⟩
        · exact absurd h (by simp)
    · next hc =>
      split at h
      · next mm hmm2 =>
        simp only [Option.some.injEq] at h
        exact ⟨[], mm, by rw [← h]; rfl, Or.inl rfl, ⟨c :: rest, hmm2⟩⟩
      · exact absurd h (by simp)

/-- C6 (amended): every match of the phone extractor is at least 10
characters long and contains at least 2 digits (not 9: the `{8,}` body may
be filled with spaces, dots, hyphens and parentheses); the match is an
optional `+`/`(` prefix, a nonzero digit, at least 8 body-class characters
and a final digit. The two concrete behaviors claimed by the spec hold:
`"call +1 (555) 123-4567 now"` yields a match with at least 9 digits, and
`"12"` yields the not-found sentinel. -/
theorem C6_phone_match_bounds :
    (∀ s m, extract_phone_number s = some m →
      10 ≤ m.data.length ∧ 2 ≤ (m.data.filter Char.isDigit).length) ∧
    extract_phone_number "call +1 (555) 123-4567 now" = some "+1 (555) 123-4567" ∧
    9 ≤ (("+1 (555) 123-4567" : String).data.filter Char.isDigit).length ∧
    extract_phone_number "12" = none := by
  refine ⟨?_, by decide, by decide, by decide⟩
  intro s m hm
  rcases (findSome_range_spec (phoneMatchAt s.data) s.data.length).2 m hm with
    ⟨i, _, hfi, _⟩
  rcases phoneMatchAt_shape s.data i m hfi with ⟨p, mm, hdata, hp, t, hcore⟩
  rcases phoneCore_shape t mm hcore with ⟨c, body, d, hmm, hcd, _, hblen, _, hdd⟩
  subst hmm
  constructor
  · rw [hdata]
    simp only [List.length_append, List.length_cons]
    omega
  · rw [hdata]
    rw [List.filter_append, List.filter_cons, hcd]
    simp only [if_true]
    rw [List.filter_append]
    have hd1 : List.filter Char.isDigit [d] = [d] := by
      rw [List.filter_cons, hdd]
      rfl
    rw [hd1]
    simp only [List.length_append, List.length_cons]
    omega

/-- C6 counterexample to the claim as stated: the phone pattern's body
class admits non-digits, so a returned match can contain as few as two
digits — fewer than the claimed nine. -/
theorem C6_phone_digits_counterexample :
    ∃ m, extract_phone_number "1 . . . .2" = some m ∧
      (m.data.filter Char.isDigit).length < 9 :=
  ⟨"1 . . . .2", by decide, by decide⟩

/-- Concrete instantiation of C6 (amended) on the spec's phone example. -/
theorem C6_phone_match_bounds_witness :
    10 ≤ ("+1 (555) 123-4567" : String).data.length ∧
    2 ≤ (("+1 (555) 123-4567" : String).data.filter Char.isDigit).length :=
  C6_phone_match_bounds.1 "call +1 (555) 123-4567 now" "+1 (555) 123-4567"
    (by decide)

/-! ## Section segmenter `extract_categories` (src/extract_data.py 173-221)

The spaCy tokenizer is external: a document is its token list, each token
carrying its text and the whitespace that follows it (spaCy's
`token.whitespace_`); a span's text is the original text from its first to
its last token. The `Matcher` is embedded: a pattern is a list of
lower-case words compared against the lower-cased token texts (the `LOWER`
attribute), and the match list comes out in ascending start position, as
spaCy's `Matcher` yields it. -/

structure Token where
  text : String
  ws : String
deriving DecidableEq, Repr

/-- The five labels with their keyword patterns (lines 186-196),
in declaration order. -/
def catPatterns : List (String × List (List String)) :=
  [("Education", [["education"]]),
   ("Experience", [["experience"]]),
   ("SKILLS, INTERESTS AND EXTRACURRICULAR ACTIVITIES",
     [["skills"], ["interests"], ["extracurricular", "activities"]]),
   ("Key Achievements", [["key", "achievements"]]),
   ("Personal Statement", [["personal", "statement"]])]

def catLabels : List String := catPatterns.map (fun p => p.1)

/-- One keyword pattern matches at token position `i` when every pattern
word equals the lower-cased text of the corresponding token. -/
def patMatchAt (doc : List Token) (pat : List String) (i : Nat) : Bool :=
  decide (i + pat.length ≤ doc.length) &&
    (List.range pat.length).all
      (fun j => pyLower ((doc.getD (i + j) ⟨"", ""⟩).text) == pat.getD j "")

/-- A label matches at `i` when one of its keyword patterns does. -/
def labelMatchAt (doc : List Token) (label : String) (i : Nat) : Bool :=
  ((catPatterns.lookup label).getD []).any (fun pat => patMatchAt doc pat i)

/-- The matcher's matches anchored at one position, in pattern-declaration
order: one `(label, i)` entry per label with a pattern matching at `i`. -/
def entriesAt (doc : List Token) (i : Nat) : List (String × Nat) :=
  catPatterns.flatMap
    (fun p => if p.2.any (fun pat => patMatchAt doc pat i) then [(p.1, i)] else [])

/-- All matcher matches, ascending by start position (spaCy's order). -/
def matcherMatches (doc : List Token) : List (String × Nat) :=
  (List.range doc.length).flatMap (entriesAt doc)

def startPosInit : List (String × Option Nat) :=
  catLabels.map (fun l => (l, none))

/-- `start_pos[rule_id] = start` (line 208): overwrite the label's entry. -/
def setPos (m : List (String × Option Nat)) (lbl : String) (p : Nat) :
    List (String × Option Nat) :=
  m.map (fun kv => if kv.1 == lbl then (kv.1, some p) else kv)

/-- The `start_pos` dictionary after the match loop (lines 204-208): each
match overwrites its label's recorded position in turn. -/
def startPos (doc : List Token) : List (String × Option Nat) :=
  (matcherMatches doc).foldl (fun m li => setPos m li.1 li.2) startPosInit

/-- The recorded start position of a label. -/
def lookupPos (doc : List Token) (label : String) : Option Nat :=
  ((startPos doc).lookup label).join

/-- One step of the `end_pos` loop (lines 213-215): take the minimum with
a recorded position strictly above `p`, ignore the rest. -/
def endPosStep (p e : Nat) (kv : String × Option Nat) : Nat :=
  match kv.2 with
  | some q => if p < q then min e q else e
  | none => e

/-- `end_pos` computation (lines 212-215): the minimum recorded position
strictly above `p` among all entries, defaulting to the document length. -/
def endPos (doc : List Token) (p : Nat) : Nat :=
  (startPos doc).foldl (endPosStep p) doc.length

/-- `span.text` for the token span `[p, e)`: the original text from the
first token to the last (inner whitespace kept, trailing dropped). -/
def spanTextL : List Token → List Char
  | [] => []
  | [t] => t.text.data
  | t :: t2 :: rest => t.text.data ++ t.ws.data ++ spanTextL (t2 :: rest)

def spanText (doc : List Token) (p e : Nat) : String :=
  ⟨spanTextL ((doc.drop p).take (e - p))⟩

def pyUpper (s : String) : String := ⟨s.data.map Char.toUpper⟩

/-- The section text recorded for one label (lines 210-219):
`span.text.strip().replace(category.upper() + "\n\n", "")`, or the empty
string when the label has no recorded position. -/
def catValue (doc : List Token) (label : String) : String :=
  match lookupPos doc label with
  | none => ""
  | some p =>
    pyReplace (pyStrip (spanText doc p (endPos doc p)))
      (pyUpper label ++ "\n\n") ""

def extract_categories (doc : List Token) : List (String × String) :=
  catLabels.map (fun label => (label, catValue doc label))

/-- `categories.get(label, default)`. -/
def lookupCat (cats : List (String × String)) (label d : String) : String :=
  (cats.lookup label).getD d

structure ContactInfo where
  name : Option String
  email : Option String
  phone : Option String
  portfolioLinkedin : Option String
deriving DecidableEq, Repr

structure ResumeData where
  education : List EducationRecord
  experience : List ExperienceRecord
  skills : String
  keyAchievements : String
  personalStatement : String
  contact : ContactInfo
deriving DecidableEq, Repr

/-- `extract_resume_data` (lines 350-380). The spaCy collaborators enter
as parameters: `doc` is the tokenization of `text`, `sentsOf` maps a
section's text to its sentences with entities (sentence segmentation plus
NER), and `nameOf` stands for `extract_name`'s PERSON lookup. The
`Education`/`Experience` keys are always present in the categories
mapping, so the `getD ""` defaults on those two lookups are inert. -/
def extract_resume_data (text : String) (doc : List Token)
    (sentsOf : String → List Sentence) (nameOf : Option String) : ResumeData :=
  let categories := extract_categories doc
  { education := extract_education (sentsOf (lookupCat categories "Education" ""))
    experience :=
      extract_experiences (sentsOf (lookupCat categories "Experience" ""))
    skills :=
      lookupCat categories "SKILLS, INTERESTS AND EXTRACURRICULAR ACTIVITIES" "N/A"
    keyAchievements := lookupCat categories "Key Achievements" "N/A"
    personalStatement := lookupCat categories "Personal Statement" "N/A"
    contact :=
      { name := nameOf
        email := extract_email text
        phone := extract_phone_number text
        portfolioLinkedin := extract_portfolio_linkedin text } }

/-! ## The match loop: last write wins -/

theorem lookup_cons_pos {β : Type} {a k : String} {b : β} {es : List (String × β)}
    (hbeq : (a == k) = true) : List.lookup a ((k, b) :: es) = some b := by
  rw [List.lookup_cons, hbeq]

theorem lookup_cons_neg {β : Type} {a k : String} {b : β} {es : List (String × β)}
    (hbeq : (a == k) = false) : List.lookup a ((k, b) :: es) = List.lookup a es := by
  rw [List.lookup_cons, hbeq]

theorem setPos_lookup (m : List (String × Option Nat)) (lbl : String) (p : Nat)
    (label : String) :
    (setPos m lbl p).lookup label =
      if label = lbl then (m.lookup label).map (fun _ => some p)
      else m.lookup label := by
  induction m with
  | nil => by_cases h : label = lbl <;> simp [setPos, h]
  | cons kv m' ih =>
    obtain ⟨k, v⟩ := kv
    simp only [setPos, List.map_cons]
    by_cases hkl : k = lbl
    · have hkl2 : (k == lbl) = true := by simpa using hkl
      rw [if_pos hkl2]
      by_cases hlk : label = k
      · have hlk2 : (label == k) = true := by simpa using hlk
        rw [lookup_cons_pos hlk2, if_pos (hlk.trans hkl), lookup_cons_pos hlk2]
        rfl
      · have hlk2 : (label == k) = false := by simpa using hlk
        have hne : ¬label = lbl := by
          rw [← hkl]
          exact hlk
        rw [lookup_cons_neg hlk2]
        simp only [setPos] at ih
        rw [ih, if_neg hne, if_neg hne, lookup_cons_neg hlk2]
    · have hkl2 : ¬((k == lbl) = true) := by simpa using hkl
      rw [if_neg hkl2]
      by_cases hlk : label = k
      · have hlk2 : (label == k) = true := by simpa using hlk
        have hne : ¬label = lbl := by
          rw [hlk]
          exact hkl
        rw [lookup_cons_pos hlk2, if_neg hne, lookup_cons_pos hlk2]
      · have hlk2 : (label == k) = false := by simpa using hlk
        rw [lookup_cons_neg hlk2]
        simp only [setPos] at ih
        rw [ih]
        by_cases hll : label = lbl
        · rw [if_pos hll, if_pos hll, lookup_cons_neg hlk2]
        · rw [if_neg hll, if_neg hll, lookup_cons_neg hlk2]

theorem setPos_lookup_isSome (m : List (String × Option Nat)) (lbl : String)
    (p : Nat) (label : String) :
    ((setPos m lbl p).lookup label).isSome = ((m.lookup label).isSome) := by
  rw [setPos_lookup]
  by_cases h : label = lbl
  · rw [if_pos h]
    cases m.lookup label <;> rfl
  · rw [if_neg h]

theorem map_const_eq_of_isSome {α β : Type} (o1 o2 : Option α) (c : β)
    (h : o1.isSome = o2.isSome) :
    o1.map (fun _ => c) = o2.map (fun _ => c) := by
  cases o1 <;> cases o2 <;> simp_all

/-- Folding the match list into the position table: the final entry of a
label is its last update, or the initial value if it was never updated. -/
theorem lookup_fold_setPos (ms : List (String × Nat))
    (init : List (String × Option Nat)) (label : String) :
    ((ms.foldl (fun m li => setPos m li.1 li.2) init).lookup label) =
      match (ms.filter (fun li => li.1 == label)).getLast? with
      | some li => (init.lookup label).map (fun _ => some li.2)
      | none => init.lookup label := by
  induction ms generalizing init with
  | nil => simp
  | cons li ms ih =>
    show ((ms.foldl _ (setPos init li.1 li.2)).lookup label) = _
    rw [ih]
    by_cases h : (li.1 == label) = true
    · have hlab : label = li.1 := by
        have := eq_of_beq h
        exact this.symm
      rw [List.filter_cons, if_pos h]
      rw [List.getLast?_cons]
      cases hlast : (ms.filter (fun li => li.1 == label)).getLast? with
      | none =>
        simp only [hlast, Option.getD_none, Option.getD_some]
        rw [setPos_lookup, if_pos hlab]
      | some x =>
        simp only [hlast, Option.getD_some]
        exact map_const_eq_of_isSome _ _ _ (setPos_lookup_isSome init li.1 li.2 label)
    · rw [List.filter_cons, if_neg h]
      have hlab : ¬(label = li.1) := by
        intro he
        exact h (by simp [he])
      cases hlast : (ms.filter (fun li => li.1 == label)).getLast? with
      | none =>
        simp only [hlast]
        rw [setPos_lookup, if_neg hlab]
      | some x =>
        simp only [hlast]
        rw [setPos_lookup, if_neg hlab]

theorem filter_flatMap {α β : Type} (p : β → Bool) (f : α → List β)
    (l : List α) :
    (l.flatMap f).filter p = l.flatMap (fun a => (f a).filter p) := by
  induction l with
  | nil => rfl
  | cons a l ih =>
    show ((f a ++ l.flatMap f).filter p) = _
    rw [List.filter_append, ih]
    rfl

theorem filter_ite_singleton {α : Type} (q : α → Bool) (c : Prop)
    [inst : Decidable c] (x : α) :
    (if c then [x] else []).filter q =
      if c then (if q x then [x] else []) else [] := by
  split
  · simp [List.filter_cons]
  · rfl

theorem flatMap_ite_singleton {α β : Type} (l : List α) (c : α → Bool)
    (f : α → β) :
    l.flatMap (fun a => if c a then [f a] else []) = (l.filter c).map f := by
  induction l with
  | nil => rfl
  | cons a l ih =>
    rw [List.flatMap_cons, ih, List.filter_cons]
    cases hc : c a
    · simp
    · simp

theorem lookup_mem {β : Type} (l : List (String × β)) (a : String) (b : β)
    (h : l.lookup a = some b) : (a, b) ∈ l := by
  induction l with
  | nil => cases h
  | cons kv l ih =>
    obtain ⟨k, v⟩ := kv
    cases hbeq : (a == k) with
    | true =>
      rw [lookup_cons_pos hbeq] at h
      cases h
      rw [eq_of_beq hbeq]
      exact List.mem_cons_self _ _
    | false =>
      rw [lookup_cons_neg hbeq] at h
      exact List.mem_cons_of_mem _ (ih h)

/-- Filtering the matcher's per-position entries down to one label gives a
singleton exactly when that label matches there. -/
theorem entriesAt_filter (doc : List Token) (i : Nat) (label : String)
    (hmem : label ∈ catLabels) :
    (entriesAt doc i).filter (fun li => li.1 == label) =
      if labelMatchAt doc label i then [(label, i)] else [] := by
  have hm2 : label ∈ ["Education", "Experience",
      "SKILLS, INTERESTS AND EXTRACURRICULAR ACTIVITIES",
      "Key Achievements", "Personal Statement"] := hmem
  fin_cases hm2 <;>
    simp [entriesAt, catPatterns, labelMatchAt, List.lookup, filter_ite_singleton]

theorem startPosInit_lookup (label : String) (hmem : label ∈ catLabels) :
    startPosInit.lookup label = some none := by
  have hm2 : label ∈ ["Education", "Experience",
      "SKILLS, INTERESTS AND EXTRACURRICULAR ACTIVITIES",
      "Key Achievements", "Personal Statement"] := hmem
  fin_cases hm2 <;> rfl

/-- The recorded position of a label is the LAST position at which one of
its keyword patterns matches (the loop at lines 206-208 overwrites the
entry for every match, and the matcher's matches come in ascending start
order). -/
theorem lookupPos_eq_getLast (doc : List Token) (label : String)
    (hmem : label ∈ catLabels) :
    lookupPos doc label =
      ((List.range doc.length).filter
        (fun i => labelMatchAt doc label i)).getLast? := by
  rw [lookupPos, startPos, lookup_fold_setPos]
  have hfil : (matcherMatches doc).filter (fun li => li.1 == label) =
      (((List.range doc.length).filter
        (fun i => labelMatchAt doc label i)).map (fun i => (label, i))) := by
    rw [matcherMatches, filter_flatMap]
    have hpt : ∀ i, (entriesAt doc i).filter (fun li => li.1 == label) =
        if labelMatchAt doc label i then [(label, i)] else [] :=
      fun i => entriesAt_filter doc i label hmem
    calc (List.range doc.length).flatMap
          (fun i => (entriesAt doc i).filter (fun li => li.1 == label))
        = (List.range doc.length).flatMap
            (fun i => if labelMatchAt doc label i then [(label, i)] else []) := by
          exact congrArg _ (funext hpt)
      _ = _ := flatMap_ite_singleton _ _ _
  rw [hfil, List.getLast?_map]
  cases hlast : ((List.range doc.length).filter
      (fun i => labelMatchAt doc label i)).getLast? with
  | none =>
    simp only [Option.map_none']
    rw [startPosInit_lookup label hmem]
    rfl
  | some i0 =>
    simp only [Option.map_some']
    rw [startPosInit_lookup label hmem]
    rfl

theorem endPosStep_some (p e : Nat) (lbl : String) (q : Nat) :
    endPosStep p e (lbl, some q) = if p < q then min e q else e := rfl

theorem endPosStep_none (p e : Nat) (lbl : String) :
    endPosStep p e (lbl, none) = e := rfl

/-- The running minimum of the `end_pos` loop never increases. -/
theorem endPosFold_le (l : List (String × Option Nat)) (p e : Nat) :
    l.foldl (endPosStep p) e ≤ e := by
  induction l generalizing e with
  | nil => exact Nat.le_refl e
  | cons kv l ih =>
    show List.foldl (endPosStep p) (endPosStep p e kv) l ≤ e
    refine Nat.le_trans (ih _) ?_
    obtain ⟨lbl0, v0⟩ := kv
    cases v0 with
    | none => exact Nat.le_of_eq (endPosStep_none p e lbl0)
    | some q =>
      rw [endPosStep_some]
      split
      · exact Nat.min_le_left _ _
      · exact Nat.le_refl e

theorem endPosFold_le_of_mem (l : List (String × Option Nat)) (p e : Nat)
    (lbl : String) (q : Nat) (hmem : (lbl, some q) ∈ l) (hpq : p < q) :
    l.foldl (endPosStep p) e ≤ q := by
  induction l generalizing e with
  | nil => cases hmem
  | cons kv l ih =>
    show List.foldl (endPosStep p) (endPosStep p e kv) l ≤ q
    rcases List.mem_cons.mp hmem with rfl | hmem2
    · rw [endPosStep_some, if_pos hpq]
      exact Nat.le_trans (endPosFold_le l p (min e q)) (Nat.min_le_right _ _)
    · exact ih _ hmem2

/-- The result of the `end_pos` loop is either the initial document length
or one of the recorded positions strictly above `p`. -/
theorem endPosFold_cases (l : List (String × Option Nat)) (p e : Nat) :
    l.foldl (endPosStep p) e = e ∨
    ∃ lbl q, (lbl, some q) ∈ l ∧ p < q ∧ l.foldl (endPosStep p) e = q := by
  induction l generalizing e with
  | nil => exact Or.inl rfl
  | cons kv l ih =>
    obtain ⟨lbl0, v0⟩ := kv
    rw [show List.foldl (endPosStep p) e ((lbl0, v0) :: l) =
        List.foldl (endPosStep p) (endPosStep p e (lbl0, v0)) l from rfl]
    cases v0 with
    | none =>
      rw [endPosStep_none]
      rcases ih e with h | ⟨lbl, q, hm, hpq, heq⟩
      · exact Or.inl h
      · exact Or.inr ⟨lbl, q, List.mem_cons_of_mem _ hm, hpq, heq⟩
    | some q0 =>
      rw [endPosStep_some]
      by_cases hpq0 : p < q0
      · rw [if_pos hpq0]
        rcases ih (min e q0) with h | ⟨lbl, q, hm, hpq, heq⟩
        · rcases Nat.le_total e q0 with hle | hle
          · exact Or.inl (h.trans (Nat.min_eq_left hle))
          · exact Or.inr ⟨lbl0, q0, List.mem_cons_self _ _, hpq0,
              h.trans (Nat.min_eq_right hle)⟩
        · exact Or.inr ⟨lbl, q, List.mem_cons_of_mem _ hm, hpq, heq⟩
      · rw [if_neg hpq0]
        rcases ih e with h | ⟨lbl, q, hm, hpq, heq⟩
        · exact Or.inl h
        · exact Or.inr ⟨lbl, q, List.mem_cons_of_mem _ hm, hpq, heq⟩

/-! ## No two labels match at the same token position -/

theorem patMatch_first (doc : List Token) (pat : List String) (i : Nat)
    (h : patMatchAt doc pat i = true) (hne : pat ≠ []) :
    pyLower ((doc.getD i ⟨"", ""⟩).text) = pat.getD 0 "" := by
  unfold patMatchAt at h
  rw [Bool.and_eq_true] at h
  have hall := List.all_eq_true.mp h.2
  have h0 : (0 : Nat) ∈ List.range pat.length := by
    rw [List.mem_range]
    cases pat with
    | nil => exact absurd rfl hne
    | cons w ws => exact Nat.succ_pos _
  have hz := hall 0 h0
  simp only [Nat.add_zero] at hz
  exact eq_of_beq hz

/-- The patterns registered for a label. -/
def labelPats (label : String) : List (List String) :=
  (catPatterns.lookup label).getD []

theorem label_first_word (doc : List Token) (label : String) (i : Nat)
    (h : labelMatchAt doc label i = true) :
    ∃ pat ∈ labelPats label,
      pyLower ((doc.getD i ⟨"", ""⟩).text) = pat.getD 0 "" := by
  unfold labelMatchAt at h
  rcases List.any_eq_true.mp h with ⟨pat, hpat, hmatch⟩
  refine ⟨pat, hpat, patMatch_first doc pat i hmatch ?_⟩
  cases hl : catPatterns.lookup label with
  | none =>
    rw [hl] at hpat
    cases hpat
  | some pats =>
    rw [hl] at hpat
    have hent : (label, pats) ∈ catPatterns := lookup_mem _ _ _ hl
    have hall : ∀ e ∈ catPatterns, ∀ q ∈ e.2, q ≠ ([] : List String) := by decide
    exact hall _ hent pat hpat

/-- The first keyword words of distinct labels are pairwise distinct, so
two different labels never match at the same token position. -/
theorem labels_disjoint (doc : List Token) (i : Nat) (l1 l2 : String)
    (h1 : l1 ∈ catLabels) (h2 : l2 ∈ catLabels) (hne : l1 ≠ l2)
    (m1 : labelMatchAt doc l1 i = true) (m2 : labelMatchAt doc l2 i = true) :
    False := by
  rcases label_first_word doc l1 i m1 with ⟨pat1, hp1, hw1⟩
  rcases label_first_word doc l2 i m2 with ⟨pat2, hp2, hw2⟩
  have hw : pat1.getD 0 "" = pat2.getD 0 "" := hw1.symm.trans hw2
  have hm1 : l1 ∈ ["Education", "Experience",
      "SKILLS, INTERESTS AND EXTRACURRICULAR ACTIVITIES",
      "Key Achievements", "Personal Statement"] := h1
  have hm2 : l2 ∈ ["Education", "Experience",
      "SKILLS, INTERESTS AND EXTRACURRICULAR ACTIVITIES",
      "Key Achievements", "Personal Statement"] := h2
  fin_cases hm1 <;> fin_cases hm2 <;>
    first
      | exact hne rfl
      | (fin_cases hp1 <;> fin_cases hp2 <;> simp_all)

/-! ## C2: the segmenter's recorded positions -/

/-- Duplicate-heading document: the keyword "education" occurs at token
positions 0 and 2. -/
def dupDoc : List Token :=
  [⟨"education", " "⟩, ⟨"alpha", " "⟩, ⟨"education", " "⟩, ⟨"beta", ""⟩]

/-- C2 counterexample: with "education" at positions 0 and 2, the segmenter
records position 2 — the LAST occurrence, not the first (position 0, where
the keyword also matches). -/
theorem C2_first_occurrence_counterexample :
    lookupPos dupDoc "Education" = some 2 ∧
    labelMatchAt dupDoc "Education" 0 = true ∧ (2 : Nat) ≠ 0 :=
  ⟨by decide, by decide, by decide⟩

/-- C2 (amended): for each label the segmenter records the position of the
LAST occurrence of any of that label's keyword phrases (each match
overwrites the entry, and matches arrive in ascending position), or none
when absent; the labeled sections remain non-overlapping: distinct labels
record distinct positions, and the section starting at the smaller
recorded position ends no later than the larger recorded position. -/
theorem C2_segmenter_positions (doc : List Token) (label label2 : String)
    (hmem : label ∈ catLabels) (hmem2 : label2 ∈ catLabels) :
    lookupPos doc label =
      ((List.range doc.length).filter
        (fun i => labelMatchAt doc label i)).getLast? ∧
    (∀ p q, label ≠ label2 → lookupPos doc label = some p →
      lookupPos doc label2 = some q →
      p ≠ q ∧ (p < q → endPos doc p ≤ q)) := by
  constructor
  · exact lookupPos_eq_getLast doc label hmem
  · intro p q hne hp hq
    have hpmatch : labelMatchAt doc label p = true := by
      rw [lookupPos_eq_getLast doc label hmem] at hp
      have := List.mem_filter.mp (mem_of_getLast? hp)
      exact this.2
    have hqmatch : labelMatchAt doc label2 q = true := by
      rw [lookupPos_eq_getLast doc label2 hmem2] at hq
      have := List.mem_filter.mp (mem_of_getLast? hq)
      exact this.2
    constructor
    · intro heq
      subst heq
      exact labels_disjoint doc p label label2 hmem hmem2 hne hpmatch hqmatch
    · intro hlt
      have hlook : (startPos doc).lookup label2 = some (some q) := by
        have := hq
        rw [lookupPos] at this
        cases hcase : (startPos doc).lookup label2 with
        | none =>
          rw [hcase] at this
          cases this
        | some o =>
          rw [hcase] at this
          cases o with
          | none => cases this
          | some v =>
            cases this
            rfl
      have hmemq : (label2, some q) ∈ startPos doc :=
        lookup_mem _ _ _ hlook
      exact endPosFold_le_of_mem (startPos doc) p doc.length label2 q hmemq hlt

/-- Concrete instantiation of C2 (amended) on the duplicate-heading
document. -/
theorem C2_segmenter_positions_witness :
    lookupPos dupDoc "Education" =
      ((List.range dupDoc.length).filter
        (fun i => labelMatchAt dupDoc "Education" i)).getLast? :=
  (C2_segmenter_positions dupDoc "Education" "Experience"
    (by decide) (by decide)).1

/-! ## C3: section ends and the (non-)stripping of headings -/

/-- Tokenization of the normalized text "education: x. experience: y.". -/
def exDoc : List Token :=
  [⟨"education", ""⟩, ⟨":", " "⟩, ⟨"x", ""⟩, ⟨".", " "⟩,
   ⟨"experience", ""⟩, ⟨":", " "⟩, ⟨"y", ""⟩, ⟨".", ""⟩]

/-- C3 counterexample: on "education: x. experience: y." the Education
section is "education: x." — it starts at the heading keyword itself, not
at "x." as the claim states, because the code only strips the upper-case
label followed by two newlines, which cannot occur in normalized text. -/
theorem C3_heading_strip_counterexample :
    lookupCat (extract_categories exDoc) "Education" "" = "education: x." ∧
    ("education: x." : String) ≠ "x." :=
  ⟨by decide, by decide⟩

/-- C3 (amended): for a label with recorded position `p` the section end is
the minimum recorded position strictly greater than `p` among the recorded
labels, or the end of the document when none exists; a label with no
recorded position maps to the empty string; but the heading keyword is NOT
stripped from the front of the returned section text (the code removes
only the exact upper-cased label followed by two newlines): on
"education: x. experience: y." Education maps to "education: x." and
Experience maps to "experience: y.", each span starting at its heading
keyword and the Education span ending before "experience". -/
theorem C3_section_bounds (doc : List Token) (label : String) (p : Nat) :
    (∀ lbl2 q, (lbl2, some q) ∈ startPos doc → p < q → endPos doc p ≤ q) ∧
    (endPos doc p = doc.length ∨
      ∃ lbl2 q, (lbl2, some q) ∈ startPos doc ∧ p < q ∧ endPos doc p = q) ∧
    (label ∈ catLabels → lookupPos doc label = none →
      lookupCat (extract_categories doc) label "" = "") ∧
    lookupCat (extract_categories exDoc) "Education" "" = "education: x." ∧
    lookupCat (extract_categories exDoc) "Experience" "" = "experience: y." := by
  refine ⟨?_, ?_, ?_, by decide, by decide⟩
  · intro lbl2 q hm hpq
    exact endPosFold_le_of_mem (startPos doc) p doc.length lbl2 q hm hpq
  · exact endPosFold_cases (startPos doc) p doc.length
  · intro hmem h
    have hlk : (extract_categories doc).lookup label =
        some (catValue doc label) := by
      have hm2 : label ∈ ["Education", "Experience",
          "SKILLS, INTERESTS AND EXTRACURRICULAR ACTIVITIES",
          "Key Achievements", "Personal Statement"] := hmem
      fin_cases hm2 <;> rfl
    rw [lookupCat, hlk]
    simp [catValue, h]

/-- Concrete instantiation of C3 (amended): a label with no recorded
heading maps to the empty string. -/
theorem C3_section_bounds_witness :
    lookupCat (extract_categories dupDoc) "Experience" "" = "" :=
  (C3_section_bounds dupDoc "Experience" 0).2.2.1 (by decide) (by decide)

/-! ## C10: fixed key set of the categories mapping -/

/-- Lookup of each of the five labels in the categories mapping always
succeeds, with the label's computed section value. -/
theorem cats_lookup_edu (doc : List Token) :
    (extract_categories doc).lookup "Education" =
      some (catValue doc "Education") := rfl

theorem cats_lookup_skills (doc : List Token) :
    (extract_categories doc).lookup
        "SKILLS, INTERESTS AND EXTRACURRICULAR ACTIVITIES" =
      some (catValue doc "SKILLS, INTERESTS AND EXTRACURRICULAR ACTIVITIES") := rfl

theorem cats_lookup_keyach (doc : List Token) :
    (extract_categories doc).lookup "Key Achievements" =
      some (catValue doc "Key Achievements") := rfl

theorem cats_lookup_personal (doc : List Token) :
    (extract_categories doc).lookup "Personal Statement" =
      some (catValue doc "Personal Statement") := rfl

/-- C10: for every document the categories mapping has exactly the five
fixed labels as its key set, in declaration order; a label with no
recorded heading position maps to the empty string; hence the `"N/A"`
defaults that `extract_resume_data` passes to its `get` lookups for the
Skills, Key Achievements and Personal Statement fields are never used —
with the heading absent those fields are `""`, never `"N/A"`. -/
theorem C10_categories_key_set (text : String) (doc : List Token)
    (sentsOf : String → List Sentence) (nameOf : Option String) :
    (extract_categories doc).map Prod.fst =
      ["Education", "Experience",
       "SKILLS, INTERESTS AND EXTRACURRICULAR ACTIVITIES",
       "Key Achievements", "Personal Statement"] ∧
    (lookupPos doc "SKILLS, INTERESTS AND EXTRACURRICULAR ACTIVITIES" = none →
      (extract_resume_data text doc sentsOf nameOf).skills = "") ∧
    (lookupPos doc "Key Achievements" = none →
      (extract_resume_data text doc sentsOf nameOf).keyAchievements = "") ∧
    (lookupPos doc "Personal Statement" = none →
      (extract_resume_data text doc sentsOf nameOf).personalStatement = "" ∧
      (extract_resume_data text doc sentsOf nameOf).personalStatement ≠ "N/A") := by
  refine ⟨rfl, ?_, ?_, ?_⟩
  · intro h
    show lookupCat (extract_categories doc)
      "SKILLS, INTERESTS AND EXTRACURRICULAR ACTIVITIES" "N/A" = ""
    rw [lookupCat, cats_lookup_skills]
    simp [catValue, h]
  · intro h
    show lookupCat (extract_categories doc) "Key Achievements" "N/A" = ""
    rw [lookupCat, cats_lookup_keyach]
    simp [catValue, h]
  · intro h
    have hval : lookupCat (extract_categories doc) "Personal Statement" "N/A" = "" := by
      rw [lookupCat, cats_lookup_personal]
      simp [catValue, h]
    exact ⟨hval, by rw [show (extract_resume_data text doc sentsOf nameOf).personalStatement = lookupCat (extract_categories doc) "Personal Statement" "N/A" from rfl, hval]; decide⟩

/-- Concrete instantiation of C10: on a document with no Personal
Statement heading, the field is the empty string. -/
theorem C10_categories_key_set_witness :
    (extract_resume_data "" [] (fun _ => []) none).personalStatement = "" ∧
    (extract_resume_data "" [] (fun _ => []) none).personalStatement ≠ "N/A" :=
  (C10_categories_key_set "" [] (fun _ => []) none).2.2.2 (by decide)

/-! ## C8: fields parsed from a record-starting sentence's lines -/

/-- C8 counterexample: the education description built from line 3 is
`"Modules: " + line3 + " "` — the code appends a trailing space the claim
omits, so the description is not `"Modules: " ++ line3`. -/
theorem C8_trailing_space_counterexample :
    ((extract_education [eduQualSent]).getD 0 ⟨"", "", "", "", ""⟩).description =
      "Modules: algebra, logic " ∧
    ("Modules: " ++ "algebra, logic" : String) ≠ "Modules: algebra, logic " :=
  ⟨by decide, by decide⟩

/-- C8 (amended): for a record-starting sentence, with the sentence's text
split on newlines and blank lines and label-word lines discarded: when at
least two lines remain, Education takes line 2 as formation-name and
`"Modules: " ++ line3 ++ " "` as description (with `"N/A"` in place of
line 3 when only two lines remain — note the trailing space and the
sentinel inside the prefix, both absent from the claim); Experience takes
the 4th comma field of line 1 (`"N/A"` when fewer than 4 fields), with the
first DATE entity text removed and the result trimmed, as role, and line 2
as org-description. When fewer than two lines remain all these fields are
`"N/A"`. -/
theorem C8_record_start_fields (s : Sentence) (hs : startsRecord s = true) :
    (∀ r ∈ extract_education [s],
      (1 < (sentSplitLines s.text "education").length →
        r.formationName = (sentSplitLines s.text "education").getD 1 "N/A" ∧
        r.description =
          "Modules: " ++ (sentSplitLines s.text "education").getD 2 "N/A" ++ " ") ∧
      (¬1 < (sentSplitLines s.text "education").length →
        r.formationName = "N/A" ∧ r.description = "N/A")) ∧
    (∀ r ∈ extract_experiences [s],
      (1 < (sentSplitLines s.text "experience").length →
        r.role = pyStrip (pyReplace
          ((pySplit ((sentSplitLines s.text "experience").getD 0 "") ',').getD 3 "N/A")
          ((entTexts s "DATE").getD 0 "") "") ∧
        r.orgDescription = (sentSplitLines s.text "experience").getD 1 "N/A") ∧
      (¬1 < (sentSplitLines s.text "experience").length →
        r.role = "N/A" ∧ r.orgDescription = "N/A")) := by
  have hedu : extract_education [s] = [mkEducation s] := by
    rw [extract_education]
    show (eduStep [] s).reverse = _
    rw [eduStep_starts _ _ hs]
    rfl
  have hexp : extract_experiences [s] = [mkExperience s] := by
    rw [extract_experiences]
    show (expStep [] s).reverse = _
    rw [expStep_starts _ _ hs]
    rfl
  constructor
  · intro r hr
    rw [hedu, List.mem_singleton] at hr
    subst hr
    constructor
    · intro h1
      constructor
      · show (if 1 < (sentSplitLines s.text "education").length
            then (sentSplitLines s.text "education").getD 1 "N/A" else "N/A") = _
        rw [if_pos h1]
      · show (if 1 < (sentSplitLines s.text "education").length
            then "Modules: " ++ (sentSplitLines s.text "education").getD 2 "N/A" ++ " "
            else "N/A") = _
        rw [if_pos h1]
    · intro h1
      constructor
      · show (if 1 < (sentSplitLines s.text "education").length
            then (sentSplitLines s.text "education").getD 1 "N/A" else "N/A") = _
        rw [if_neg h1]
      · show (if 1 < (sentSplitLines s.text "education").length
            then "Modules: " ++ (sentSplitLines s.text "education").getD 2 "N/A" ++ " "
            else "N/A") = _
        rw [if_neg h1]
  · intro r hr
    rw [hexp, List.mem_singleton] at hr
    subst hr
    constructor
    · intro h1
      constructor
      · show (if 1 < (sentSplitLines s.text "experience").length
            then pyStrip (pyReplace
              ((pySplit ((sentSplitLines s.text "experience").getD 0 "") ',').getD 3 "N/A")
              ((entTexts s "DATE").getD 0 "") "")
            else "N/A") = _
        rw [if_pos h1]
      · show (if 1 < (sentSplitLines s.text "experience").length
            then (sentSplitLines s.text "experience").getD 1 "N/A" else "N/A") = _
        rw [if_pos h1]
    · intro h1
      constructor
      · show (if 1 < (sentSplitLines s.text "experience").length
            then pyStrip (pyReplace
              ((pySplit ((sentSplitLines s.text "experience").getD 0 "") ',').getD 3 "N/A")
              ((entTexts s "DATE").getD 0 "") "")
            else "N/A") = _
        rw [if_neg h1]
      · show (if 1 < (sentSplitLines s.text "experience").length
            then (sentSplitLines s.text "experience").getD 1 "N/A" else "N/A") = _
        rw [if_neg h1]

/-- Concrete instantiation of C8 (amended) on the qualifying education
sentence. -/
theorem C8_record_start_fields_witness :
    ((extract_education [eduQualSent]).getD 0 ⟨"", "", "", "", ""⟩).formationName =
      (sentSplitLines eduQualSent.text "education").getD 1 "N/A" :=
  (((C8_record_start_fields eduQualSent (by decide)).1 _ (by decide)).1
    (by decide)).1

/-! ## C9: `compute_similarity` (src/app.py lines 57-69)

The TF-IDF vectorizer and cosine similarity are external collaborators;
their result — the cosine `similarity_matrix[0, 1]`, a value in `[0, 1]` —
enters as the parameter. Python floats are modelled as exact rationals;
`round(x, 2)` is Python's round-half-to-even at two decimals. -/

def roundHalfEven (x : ℚ) : ℤ :=
  if x - ⌊x⌋ < 1/2 then ⌊x⌋
  else if 1/2 < x - ⌊x⌋ then ⌊x⌋ + 1
  else if ⌊x⌋ % 2 = 0 then ⌊x⌋ else ⌊x⌋ + 1

/-- Python `round(x, 2)`. -/
def pyRound2 (x : ℚ) : ℚ := (roundHalfEven (x * 100) : ℚ) / 100

/-- `compute_similarity`, given the externally computed cosine `c`:
`similarity_score = round(c * 100, 2)` then `return similarity_score * 3`. -/
def compute_similarity (c : ℚ) : ℚ := pyRound2 (c * 100) * 3

theorem roundHalfEven_nonneg (y : ℚ) (h : 0 ≤ y) : 0 ≤ roundHalfEven y := by
  have hf : (0 : ℤ) ≤ ⌊y⌋ := Int.le_floor.mpr (by exact_mod_cast h)
  unfold roundHalfEven
  split
  · exact hf
  · split
    · omega
    · split <;> omega

theorem roundHalfEven_le (y : ℚ) (n : ℤ) (h : y ≤ n) : roundHalfEven y ≤ n := by
  have hf : ⌊y⌋ ≤ n := by
    rw [Int.floor_le_iff]
    linarith
  have hfl : (⌊y⌋ : ℚ) ≤ y := Int.floor_le y
  unfold roundHalfEven
  split
  · exact hf
  · next hr1 =>
    have hyn : y < n := by
      rcases lt_or_eq_of_le h with h2 | h2
      · exact h2
      · exfalso
        apply hr1
        rw [h2]
        rw [show ⌊(n : ℚ)⌋ = n from Int.floor_intCast n]
        norm_num
    have hfn : ⌊y⌋ + 1 ≤ n := by
      have : ⌊y⌋ ≤ n - 1 := by
        rw [Int.floor_le_iff]
        push_cast
        linarith
      omega
    split
    · exact hfn
    · split
      · exact hf
      · exact hfn

/-- C9 counterexample: at cosine 1 the result is 300, well above the
claimed upper bound 100. -/
theorem C9_similarity_range_counterexample :
    compute_similarity 1 = 300 ∧ (100 : ℚ) < compute_similarity 1 := by
  have h : compute_similarity 1 = 300 := by
    unfold compute_similarity pyRound2 roundHalfEven
    norm_num
  exact ⟨h, by rw [h]; norm_num⟩

/-- C9 (amended): the similarity is the cosine scaled to a percentage,
rounded to two decimals (round-half-even), then multiplied by the fixed
constant 3; for a cosine in `[0, 1]` the result lies in `[0, 300]` — not
`[0, 100]` — and values above 100 are indeed possible and not clamped. -/
theorem C9_similarity_scaling :
    (∀ c : ℚ, 0 ≤ c → c ≤ 1 →
      compute_similarity c = (roundHalfEven (c * 100 * 100) : ℚ) / 100 * 3 ∧
      0 ≤ compute_similarity c ∧ compute_similarity c ≤ 300) ∧
    compute_similarity (1/2) = 150 ∧ (100 : ℚ) < compute_similarity (1/2) := by
  constructor
  · intro c h0 h1
    refine ⟨rfl, ?_, ?_⟩
    · show 0 ≤ (roundHalfEven (c * 100 * 100) : ℚ) / 100 * 3
      have h2 : (0 : ℤ) ≤ roundHalfEven (c * 100 * 100) :=
        roundHalfEven_nonneg _ (by positivity)
      have h3 : (0 : ℚ) ≤ (roundHalfEven (c * 100 * 100) : ℚ) := by
        exact_mod_cast h2
      linarith
    · show (roundHalfEven (c * 100 * 100) : ℚ) / 100 * 3 ≤ 300
      have h2 : roundHalfEven (c * 100 * 100) ≤ (10000 : ℤ) := by
        apply roundHalfEven_le
        push_cast
        nlinarith
      have h3 : (roundHalfEven (c * 100 * 100) : ℚ) ≤ 10000 := by
        exact_mod_cast h2
      linarith
  · have h : compute_similarity (1/2) = 150 := by
      unfold compute_similarity pyRound2 roundHalfEven
      norm_num
    exact ⟨h, by rw [h]; norm_num⟩

/-- Concrete instantiation of C9 (amended) at cosine one half. -/
theorem C9_similarity_scaling_witness :
    0 ≤ compute_similarity (1/2) ∧ compute_similarity (1/2) ≤ 300 :=
  ⟨(C9_similarity_scaling.1 (1/2) (by norm_num) (by norm_num)).2.1,
   (C9_similarity_scaling.1 (1/2) (by norm_num) (by norm_num)).2.2⟩

end ResumeQA
